import Mathlib

/-!
Verification of the botogram core: the update fetcher with its backlog/live
boundary-search algorithm (botogram/updates.py) and the component registry
with its hook adapters (botogram/components.py).

Machine integers of the source are modelled as `Int`/`Nat`; timestamps as
`Int`; Python exceptions as `Option`/error codes; Python lists as `List`.
-/

namespace Botogram

/-- A message payload: a `date` timestamp and an optional text body. -/
structure Message where
  date : Int
  text : Option (List Char)
  deriving DecidableEq, Repr

/-- An update record from the remote API: `update_id` plus a message. -/
structure Update where
  update_id : Int
  message : Message
  deriving DecidableEq, Repr

/-- State of the boundary-search loop in `UpdatesFetcher.fetch`:
`toCheck` is the probe index (`to_check`), `chunk` is `check_chunk`, and
`last` is the `last` direction variable (`0` initially, then `1`/`-1`). -/
structure LoopState where
  toCheck : Int
  chunk : Nat
  last : Int
  deriving DecidableEq, Repr

/-- One iteration of the `while True` boundary-search loop of
`UpdatesFetcher.fetch`.  `Sum.inl` is the state at the next iteration;
`Sum.inr (tc, bp)` means the loop broke with `to_check = tc` after setting
`_backlog_processed` to `bp` (the loop only ever sets it to `True`; `bp`
is `false` when the loop left the flag alone). -/
def loopBody (us : List Update) (startedAt : Int) (s : LoopState) :
    LoopState ⊕ (Int × Bool) :=
  let u := us.getD s.toCheck.toNat ⟨0, ⟨0, none⟩⟩
  let direction : Int := if u.message.date < startedAt then 1 else -1
  let c1 := s.chunk / 2
  let c2 := if c1 = 0 then 1 else c1
  if direction = 1 ∧ s.last = -1 ∧ c2 = 1 then
    Sum.inr (s.toCheck + 1, true)
  else
    let t2 := s.toCheck + direction * (c2 : Int)
    if t2 < 0 then
      Sum.inr (t2, true)
    else if (us.length : Int) ≤ t2 then
      Sum.inr (t2, false)
    else
      Sum.inl ⟨t2, c2, direction⟩

/-- Fuel-indexed run of the boundary-search loop; `none` means the fuel ran
out (we prove below that with `fetchFuel` fuel this never happens). -/
def loopRun (us : List Update) (startedAt : Int) : Nat → LoopState → Option (Int × Bool)
  | 0, _ => none
  | fuel + 1, s =>
    match loopBody us startedAt s with
    | Sum.inr r => some r
    | Sum.inl s2 => loopRun us startedAt fuel s2

/-- Fuel that provably suffices for the boundary-search loop on a batch of
length `n`. -/
def fetchFuel (n : Nat) : Nat := (2 * n + 2) * n + n + 3

/-- Python index normalisation for a slice bound on a list of length `n`:
negative indices count from the end, clamped at the ends. -/
def pyIdx (i : Int) (n : Nat) : Nat :=
  if i < 0 then (i + n).toNat else i.toNat

/-- The mutable state of `UpdatesFetcher`: the fetch cursor `_last_id`, the
construction time `_started_at` and the sticky `_backlog_processed` flag. -/
structure UpdatesFetcher where
  last_id : Int
  started_at : Int
  backlog_processed : Bool
  deriving DecidableEq, Repr

/-- `UpdatesFetcher.__init__`: `_last_id = -1`, and `_backlog_processed`
starts `True` exactly when the bot was configured with `process_backlog`. -/
def mkFetcher (started_at : Int) (process_backlog : Bool) : UpdatesFetcher :=
  ⟨-1, started_at, process_backlog⟩

/-- `UpdatesFetcher.fetch`, given the outcome of the remote
`getUpdates` call already parsed: `resp = none` models the call raising
`ValueError` because the response could not be coerced into the expected
update-list shape (the coercion itself lives in the `api`/`objects`
modules, outside these sources), and in that case fetch raises
`FetchError`, modelled by a `none` result.  Otherwise the result is
`some (to_process, backlog)`, the pair returned by the Python code. -/
def fetch (st : UpdatesFetcher) (resp : Option (List Update)) :
    UpdatesFetcher × Option (List Update × List Update) :=
  match resp with
  | none => (st, none)
  | some updates =>
    let st1 : UpdatesFetcher :=
      match updates.getLast? with
      | some u => ⟨u.update_id, st.started_at, st.backlog_processed⟩
      | none => st
    if st1.backlog_processed then
      (st1, some (updates, []))
    else if updates.isEmpty then
      (⟨st1.last_id, st1.started_at, true⟩, some ([], []))
    else
      match loopRun updates st1.started_at (fetchFuel updates.length)
          ⟨(updates.length : Int) - 1, updates.length, 0⟩ with
      | some (tc, bp) =>
        (⟨st1.last_id, st1.started_at, bp⟩,
         some (updates.drop (pyIdx tc updates.length),
               updates.take (pyIdx tc updates.length)))
      | none => (st1, some ([], []))

/-- `fetch` against an abstract remote API: the requested offset is
`last_id + 1`, exactly as in the source. -/
def fetchWithApi (api : Int → List Update) (st : UpdatesFetcher) :
    UpdatesFetcher × Option (List Update × List Update) :=
  fetch st (some (api (st.last_id + 1)))

/-- Fetcher state after `k` consecutive `fetch` calls against `api`. -/
def iterFetch (api : Int → List Update) (st : UpdatesFetcher) : Nat → UpdatesFetcher
  | 0 => st
  | k + 1 => (fetchWithApi api (iterFetch api st k)).1

/-- All updates returned by the remote API over the first `k` fetches, in
order. -/
def seenUpdates (api : Int → List Update) (st : UpdatesFetcher) : Nat → List Update
  | 0 => []
  | k + 1 => seenUpdates api st k ++ api ((iterFetch api st k).last_id + 1)

/-- Greatest `update_id` in `us`, folded from a lower seed `m`. -/
def maxIdFrom (m : Int) (us : List Update) : Int :=
  us.foldl (fun a u => max a u.update_id) m

/-- Greatest `update_id` in `us`, seeded with the initial cursor `-1`. -/
def maxId (us : List Update) : Int := maxIdFrom (-1) us

/-- A user-provided handler function, identified by a tag; `callable`
models Python's `callable(func)` check (a non-function value passed to a
registration method). `name` models `func.__name__`. -/
structure Handler where
  tag : Nat
  name : String
  callable : Bool
  deriving DecidableEq, Repr

/-- An entry of a component's `__processors` list (or a synthesized command
processor): either a plain user handler, the closure built by
`add_message_matches_hook`, or the closure built by
`__generate_commands_processors`.  All three carry the `__name__` of the
underlying user function (`functools.wraps`). -/
inductive Hook where
  | user (f : Handler)
  | matchesHook (f : Handler) (regex : String) (flags : Nat) (multiple : Bool)
  | commandHook (name : String) (f : Handler)
  deriving DecidableEq, Repr

/-- Registration-time exceptions: `duplicateCommand` models the `NameError`
raised for an already-registered command name, `invalidHandler` the
`ValueError` raised for a non-callable handler. -/
inductive RegErr where
  | duplicateCommand
  | invalidHandler
  deriving DecidableEq, Repr

/-- A component's registration state: `__commands` (insertion-ordered, as a
Python dict), `__processors` and `__before_processors`. -/
structure Component where
  component_name : String
  commands : List (String × Handler)
  processors : List Hook
  before_processors : List Hook
  deriving DecidableEq, Repr

/-- A freshly constructed component with the given name. -/
def mkComponent (name : String) : Component := ⟨name, [], [], []⟩

/-- `Component.add_command`: duplicate-name check first, then the callable
check, then the insertion.  The first component of the result is the
component state after the call (unchanged when an exception is raised). -/
def add_command (c : Component) (f : Handler) (name : String) :
    Component × Option RegErr :=
  if (c.commands.map Prod.fst).contains name then
    (c, some RegErr.duplicateCommand)
  else if !f.callable then
    (c, some RegErr.invalidHandler)
  else
    (⟨c.component_name, c.commands ++ [(name, f)], c.processors, c.before_processors⟩, none)

/-- `Component.add_before_processing_hook`. -/
def add_before_processing_hook (c : Component) (f : Handler) :
    Component × Option RegErr :=
  if !f.callable then
    (c, some RegErr.invalidHandler)
  else
    (⟨c.component_name, c.commands, c.processors, c.before_processors ++ [Hook.user f]⟩, none)

/-- `Component.add_process_message_hook`. -/
def add_process_message_hook (c : Component) (f : Handler) :
    Component × Option RegErr :=
  if !f.callable then
    (c, some RegErr.invalidHandler)
  else
    (⟨c.component_name, c.commands, c.processors ++ [Hook.user f], c.before_processors⟩, none)

/-- `Component.add_message_matches_hook`: appends the matching closure to
`__processors`. -/
def add_message_matches_hook (c : Component) (f : Handler) (regex : String)
    (flags : Nat) (multiple : Bool) : Component × Option RegErr :=
  if !f.callable then
    (c, some RegErr.invalidHandler)
  else
    (⟨c.component_name, c.commands, c.processors ++ [Hook.matchesHook f regex flags multiple],
      c.before_processors⟩, none)

/-- `Component._get_commands`. -/
def _get_commands (c : Component) : List (String × Handler) := c.commands

/-- Sequentially register a list of `(name, handler)` pairs with
`add_command`, collecting the exception (if any) of each call. -/
def addCommandsAll (c : Component) : List (String × Handler) → Component × List (Option RegErr)
  | [] => (c, [])
  | (n, f) :: rest =>
    let step := add_command c f n
    let next := addCommandsAll step.1 rest
    (next.1, step.2 :: next.2)

/-- The `__name__` carried by a hook entry (`functools.wraps` copies the
wrapped user function's name onto the closures). -/
def hookFuncName : Hook → String
  | Hook.user f => f.name
  | Hook.matchesHook f _ _ _ => f.name
  | Hook.commandHook _ f => f.name

/-- A hook together with the metadata `__wrap_function` attaches to it
(`func.botogram.name`, the qualified name). -/
structure WrappedHook where
  hook : Hook
  qualified_name : String
  deriving DecidableEq, Repr

/-- `Component.__wrap_function`: qualified name is `component_name::name`,
or the bare name when the component name is empty (falsy). -/
def wrapFunction (c : Component) (h : Hook) : WrappedHook :=
  ⟨h, (if c.component_name = "" then "" else c.component_name ++ "::") ++ hookFuncName h⟩

/-- `Component.__generate_commands_processors`: one synthesized hook per
registered command, in dict insertion order. -/
def generateCommandsProcessors (c : Component) : List Hook :=
  c.commands.map fun p => Hook.commandHook p.1 p.2

/-- `Component._get_hooks_chain`: the three groups, in the fixed order
before-hooks, command-hooks, message-hooks, each wrapped. -/
def _get_hooks_chain (c : Component) : List (List WrappedHook) :=
  [c.before_processors.map (wrapFunction c),
   (generateCommandsProcessors c).map (wrapFunction c),
   c.processors.map (wrapFunction c)]

/-- One registration call, as recorded for order-preservation reasoning. -/
inductive RegOp where
  | beforeHook (f : Handler)
  | messageHook (f : Handler)
  | matchesHook (f : Handler) (regex : String) (flags : Nat) (multiple : Bool)
  | command (name : String) (f : Handler)
  deriving DecidableEq, Repr

/-- Apply one registration call to a component (a raised registration
exception leaves the state unchanged). -/
def applyOp (c : Component) : RegOp → Component
  | RegOp.beforeHook f => (add_before_processing_hook c f).1
  | RegOp.messageHook f => (add_process_message_hook c f).1
  | RegOp.matchesHook f r fl m => (add_message_matches_hook c f r fl m).1
  | RegOp.command n f => (add_command c f n).1

/-- Apply a sequence of registration calls in order. -/
def applyOps (c : Component) : List RegOp → Component
  | [] => c
  | op :: rest => applyOps (applyOp c op) rest

/-- The handler of a registration call. -/
def opHandler : RegOp → Handler
  | RegOp.beforeHook f => f
  | RegOp.messageHook f => f
  | RegOp.matchesHook f _ _ _ => f
  | RegOp.command _ f => f

/-- The before-hook entries a sequence of registrations contributes. -/
def beforeOf (ops : List RegOp) : List Hook :=
  ops.filterMap fun op =>
    match op with
    | RegOp.beforeHook f => some (Hook.user f)
    | _ => none

/-- The message-hook entries (plain and matches) a sequence of
registrations contributes, in order. -/
def messageOf (ops : List RegOp) : List Hook :=
  ops.filterMap fun op =>
    match op with
    | RegOp.messageHook f => some (Hook.user f)
    | RegOp.matchesHook f r fl m => some (Hook.matchesHook f r fl m)
    | _ => none

/-- The command registrations a sequence of registrations contributes. -/
def commandsOf (ops : List RegOp) : List (String × Handler) :=
  ops.filterMap fun op =>
    match op with
    | RegOp.command n f => some (n, f)
    | _ => none

/-- Occurrence positions of a literal pattern in a text, scanned left to
right with non-overlapping matches, each match advancing the scan past its
end; a non-match advances one character.  This models `re.finditer` for a
pattern without regex metacharacters (the regex engine itself is the
Python standard library, outside these sources).  `fuel` bounds the scan
(`text.length + 1` always suffices). -/
def findIterAux (pat : List Char) : Nat → Nat → List Char → List Nat
  | 0, _, _ => []
  | fuel + 1, i, s =>
    if pat ≠ [] ∧ pat.isPrefixOf s then
      i :: findIterAux pat fuel (i + pat.length) (s.drop pat.length)
    else
      match s with
      | [] => []
      | _ :: rest => findIterAux pat fuel (i + 1) rest

/-- Non-overlapping left-to-right occurrences of a literal pattern. -/
def literalFinditer (pat text : String) : List Nat :=
  findIterAux pat.toList (text.toList.length + 1) 0 text.toList

/-- The `for result in results` loop of the processor built by
`add_message_matches_hook`: returns the list of matches the user callback
is invoked on (in order) and the `found` flag; `break` after the first
iteration when `multiple` is false. -/
def matchLoop (multiple : Bool) : List Nat → List Nat × Bool
  | [] => ([], false)
  | m :: rest =>
    if multiple then
      (m :: (matchLoop multiple rest).1, true)
    else
      ([m], true)

/-- The whole processor closure built by `add_message_matches_hook`, with
the match positions supplied by a `finditer` function: on a message with
no text it returns `None` (here: no calls, result `none`); otherwise it
iterates the matches and returns `found`. -/
def matchesHookRun (finditer : String → List Nat) (multiple : Bool)
    (text : Option String) : List Nat × Option Bool :=
  match text with
  | none => ([], none)
  | some s => ((matchLoop multiple (finditer s)).1, some (matchLoop multiple (finditer s)).2)

/-- Modelled from the spec: `bot._commands_re` lives in the bot module,
which is absent from these sources.  Per the spec, it parses the first
token of the text as a command line, isolating the bare command name
before a bot-mention suffix: a leading `/`, then the name up to the first
space or `@`; no match when the text does not start with `/` or the name
is empty. -/
def commandsReMatch (text : List Char) : Option (List Char) :=
  match text with
  | [] => none
  | c :: rest =>
    if c = '/' then
      let nm := rest.takeWhile fun d => d ≠ ' ' ∧ d ≠ '@'
      if nm.isEmpty then none else some nm
    else none

/-- Python's `str.split(" ")`: split on every single space character,
preserving empty fragments (so consecutive spaces yield empty strings,
and no other whitespace splits). -/
def pySplitSpaceAux : List Char → List Char → List (List Char)
  | acc, [] => [acc.reverse]
  | acc, c :: rest =>
    if c = ' ' then acc.reverse :: pySplitSpaceAux [] rest
    else pySplitSpaceAux (c :: acc) rest

/-- Python's `text.split(" ")`. -/
def pySplitSpace (s : List Char) : List (List Char) := pySplitSpaceAux [] s

/-- The synthesized command processor of
`__generate_commands_processors` for command `name`: `None` when the
message has no text, when the commands regex does not match, or when the
matched command is another name; otherwise it calls the handler with
`text.split(" ")[1:]` and returns `True`.  The first component is the
argument list the handler is invoked with (`none` = not invoked). -/
def commandHookRun (name : List Char) (text : Option (List Char)) :
    Option (List (List Char)) × Option Bool :=
  match text with
  | none => (none, none)
  | some t =>
    match commandsReMatch t with
    | none => (none, none)
    | some g1 =>
      if g1 = name then (some ((pySplitSpace t).drop 1), some true)
      else (none, none)

/-- Text of a command line built from a name and arguments separated by
single spaces: `/name arg1 arg2 ...`. -/
def mkCmdText (name : List Char) (args : List (List Char)) : List Char :=
  '/' :: name ++ (args.map fun a => ' ' :: a).flatten

/-- The five-update batch of the spec's small backlog-split test: strictly
increasing dates crossing the `started_at = T` boundary between index 2
and index 3. -/
def specBatch (T : Int) : List Update :=
  [⟨1, ⟨T - 30, none⟩⟩, ⟨2, ⟨T - 20, none⟩⟩, ⟨3, ⟨T - 10, none⟩⟩,
   ⟨4, ⟨T + 5, none⟩⟩, ⟨5, ⟨T + 15, none⟩⟩]

/-- Termination measure for the boundary-search loop: a weight on the
shrinking chunk plus a direction-aware distance of the probe to the end it
is moving toward. -/
def stepMeasure (n : Nat) (s : LoopState) : Nat :=
  (2 * n + 2) * s.chunk +
    (if s.last = -1 then (s.toCheck + 1).toNat else (2 * (n : Int) + 1 - s.toCheck).toNat)

/-- Every continuing iteration of the loop keeps the probe in bounds, keeps
the chunk positive, and strictly decreases `stepMeasure`. -/
theorem loopBody_inl_inv (us : List Update) (t : Int) (s s2 : LoopState)
    (h1 : 1 ≤ s.chunk) (h2 : 0 ≤ s.toCheck) (h3 : s.toCheck < (us.length : Int))
    (hb : loopBody us t s = Sum.inl s2) :
    (1 ≤ s2.chunk ∧ 0 ≤ s2.toCheck ∧ s2.toCheck < (us.length : Int)) ∧
      stepMeasure us.length s2 < stepMeasure us.length s := by
  by_cases hd : (us.getD s.toCheck.toNat ⟨0, ⟨0, none⟩⟩).message.date < t <;>
    by_cases hcz : s.chunk / 2 = 0 <;>
      by_cases hl : s.last = -1 <;>
        simp only [loopBody, hd, hcz, hl, if_true, if_false, ite_true, ite_false,
          reduceIte, true_and, and_true, false_and, and_false] at hb <;>
          (try split at hb) <;> (try split at hb) <;> (try split at hb) <;>
            (try exact Sum.noConfusion hb) <;>
              (cases hb
               dsimp only
               refine ⟨⟨by omega, by omega, by omega⟩, ?_⟩
               simp [stepMeasure, hl]
               by_cases hc1 : s.chunk = 1
               · rw [hc1]
                 omega
               · have hmul := Nat.mul_le_mul_left (2 * us.length + 2)
                   (show s.chunk / 2 + 1 ≤ s.chunk by omega)
                 rw [Nat.mul_add, Nat.mul_one] at hmul
                 omega)

/-- With fuel above the measure, the boundary-search loop reaches a break. -/
theorem loopRun_isSome (us : List Update) (t : Int) :
    ∀ (fuel : Nat) (s : LoopState), 1 ≤ s.chunk → 0 ≤ s.toCheck →
      s.toCheck < (us.length : Int) → stepMeasure us.length s < fuel →
      (loopRun us t fuel s).isSome = true := by
  intro fuel
  induction fuel with
  | zero => intro s _ _ _ hm; omega
  | succ f ih =>
    intro s hc h0 hn hm
    rw [loopRun]
    cases hb : loopBody us t s with
    | inr r => rfl
    | inl s2 =>
      obtain ⟨⟨a, b, c⟩, hlt⟩ := loopBody_inl_inv us t s s2 hc h0 hn hb
      exact ih s2 a b c (by omega)

/-- The initial loop state of `fetch` satisfies the loop invariant and its
measure is below `fetchFuel`, so the loop always breaks within the fuel. -/
theorem loopRun_fetch_isSome (us : List Update) (t : Int) (h : us ≠ []) :
    (loopRun us t (fetchFuel us.length)
      ⟨(us.length : Int) - 1, us.length, 0⟩).isSome = true := by
  have hn : 1 ≤ us.length := List.length_pos.mpr h
  apply loopRun_isSome us t (fetchFuel us.length) ⟨(us.length : Int) - 1, us.length, 0⟩
  · exact hn
  · dsimp only; omega
  · dsimp only; omega
  · dsimp only [stepMeasure, fetchFuel]
    rw [if_neg (by omega)]
    omega

/-- When every update in the batch is from the backlog (date strictly before
`t`), every break of the loop leaves `to_check` at or past the batch length
and does not set `_backlog_processed`. -/
theorem loopRun_all_backlog (us : List Update) (t : Int)
    (hall : ∀ u ∈ us, u.message.date < t) :
    ∀ (fuel : Nat) (s : LoopState), 0 ≤ s.toCheck → s.toCheck < (us.length : Int) →
      s.last ≠ -1 → ∀ r, loopRun us t fuel s = some r →
      (us.length : Int) ≤ r.1 ∧ r.2 = false := by
  intro fuel
  induction fuel with
  | zero => intro s _ _ _ r hr; exact absurd hr (by rw [loopRun]; simp)
  | succ f ih =>
    intro s h0 hn hl r hr
    rw [loopRun] at hr
    have hmem : us.getD s.toCheck.toNat ⟨0, ⟨0, none⟩⟩ ∈ us := by
      have hlt : s.toCheck.toNat < us.length := by omega
      rw [List.getD_eq_getElem?_getD, List.getElem?_eq_getElem hlt]
      exact List.getElem_mem hlt
    have hd : (us.getD s.toCheck.toNat ⟨0, ⟨0, none⟩⟩).message.date < t := hall _ hmem
    cases hdec : loopBody us t s with
    | inl s2 =>
      simp only [hdec] at hr
      by_cases hcz : s.chunk / 2 = 0 <;>
        simp only [loopBody, hd, hcz, hl, if_true, if_false, ite_true, ite_false,
          reduceIte, true_and, and_true, false_and, and_false, one_mul] at hdec <;>
          split at hdec <;> (try split at hdec) <;> (try split at hdec) <;>
            first
            | exact Sum.noConfusion hdec
            | (cases hdec
               refine ih _ ?_ ?_ ?_ r hr <;> dsimp only <;> omega)
    | inr r2 =>
      simp only [hdec] at hr
      by_cases hcz : s.chunk / 2 = 0 <;>
        simp only [loopBody, hd, hcz, hl, if_true, if_false, ite_true, ite_false,
          reduceIte, true_and, and_true, false_and, and_false, one_mul] at hdec <;>
          split at hdec <;> (try split at hdec) <;> (try split at hdec) <;>
            first
            | exact Sum.noConfusion hdec
            | (exfalso; omega)
            | (cases hdec
               cases hr
               refine ⟨?_, rfl⟩
               dsimp only
               omega)

/-- When every update in the batch is live (date at or after `t`) and the
chunk is bounded by `to_check + 1`, the loop walks the probe down to exactly
`-1` and breaks there, setting `_backlog_processed`. -/
theorem loopRun_all_live (us : List Update) (t : Int)
    (hall : ∀ u ∈ us, ¬u.message.date < t) :
    ∀ (fuel : Nat) (s : LoopState), 0 ≤ s.toCheck → s.toCheck < (us.length : Int) →
      1 ≤ s.chunk → (s.chunk : Int) ≤ s.toCheck + 1 → s.toCheck.toNat + 1 ≤ fuel →
      loopRun us t fuel s = some (-1, true) := by
  intro fuel
  induction fuel with
  | zero => intro s _ _ _ _ hf; omega
  | succ f ih =>
    intro s h0 hn hc hcb hf
    have hmem : us.getD s.toCheck.toNat ⟨0, ⟨0, none⟩⟩ ∈ us := by
      have hlt : s.toCheck.toNat < us.length := by omega
      rw [List.getD_eq_getElem?_getD, List.getElem?_eq_getElem hlt]
      exact List.getElem_mem hlt
    have hd : ¬(us.getD s.toCheck.toNat ⟨0, ⟨0, none⟩⟩).message.date < t := hall _ hmem
    rw [loopRun]
    cases hdec : loopBody us t s with
    | inl s2 =>
      simp only [hdec]
      by_cases hcz : s.chunk / 2 = 0 <;>
        simp only [loopBody, hd, hcz, if_true, if_false, ite_true, ite_false,
          reduceIte, neg_mul, one_mul, false_and, and_false] at hdec <;>
          split at hdec <;> (try split at hdec) <;> (try split at hdec) <;>
            first
            | exact Sum.noConfusion hdec
            | (cases hdec
               refine ih _ ?_ ?_ ?_ ?_ ?_ <;> dsimp only <;> omega)
    | inr r2 =>
      simp only [hdec]
      by_cases hcz : s.chunk / 2 = 0 <;>
        simp only [loopBody, hd, hcz, if_true, if_false, ite_true, ite_false,
          reduceIte, neg_mul, one_mul, false_and, and_false] at hdec <;>
          split at hdec <;> (try split at hdec) <;> (try split at hdec) <;>
            first
            | exact Sum.noConfusion hdec
            | (exfalso; omega)
            | (cases hdec
               refine congrArg some (Prod.ext ?_ rfl)
               dsimp only
               omega)

/-- Non-empty lists have a last element. -/
theorem getLast?_some_of_ne_nil (us : List Update) (h : us ≠ []) :
    ∃ u, us.getLast? = some u := by
  cases us with
  | nil => exact absurd rfl h
  | cons a l => exact ⟨(a :: l).getLast (by simp), List.getLast?_eq_getLast _ _⟩

/-- C1.  The original claim also asserts that the state becomes
`BacklogResolved`; in fact the all-backlog exit of the loop is the
`to_check >= len(updates)` break, which leaves `_backlog_processed`
untouched.  This closed computation shows the claim false on a concrete
all-backlog batch: live and backlog are as claimed, but the flag stays
`false`. -/
theorem claim1_all_backlog_counterexample :
    ¬((fetch ⟨-1, 100, false⟩ (some [⟨1, ⟨50, none⟩⟩])).2 =
          some ([], [⟨1, ⟨50, none⟩⟩]) ∧
        (fetch ⟨-1, 100, false⟩ (some [⟨1, ⟨50, none⟩⟩])).1.backlog_processed = true) := by
  decide

/-- C1 (amended).  For every non-empty batch fetched while the fetcher is
awaiting backlog resolution, if every update's message date is strictly
before `started_at`, then `fetch` returns an empty live list and the whole
batch as backlog — but `_backlog_processed` remains `false` (resolution is
deferred to a later fetch), rather than the state becoming
`BacklogResolved`. -/
theorem claim1_all_backlog (st : UpdatesFetcher) (us : List Update)
    (hbp : st.backlog_processed = false) (hne : us ≠ [])
    (hall : ∀ u ∈ us, u.message.date < st.started_at) :
    (fetch st (some us)).2 = some ([], us) ∧
      (fetch st (some us)).1.backlog_processed = false := by
  obtain ⟨u, hu⟩ := getLast?_some_of_ne_nil us hne
  have hne2 : us.isEmpty = false := by
    cases us with
    | nil => exact absurd rfl hne
    | cons a l => rfl
  have hlen : 1 ≤ us.length := List.length_pos.mpr hne
  obtain ⟨r, hr⟩ := Option.isSome_iff_exists.mp (loopRun_fetch_isSome us st.started_at hne)
  obtain ⟨tc, bp⟩ := r
  have hfacts := loopRun_all_backlog us st.started_at hall (fetchFuel us.length)
    ⟨(us.length : Int) - 1, us.length, 0⟩ (by dsimp only; omega) (by dsimp only; omega)
    (by dsimp only; omega) (tc, bp) hr
  obtain ⟨htc, hbp2⟩ := hfacts
  have hidx : us.length ≤ pyIdx tc us.length := by
    simp only [pyIdx]
    rw [if_neg (by omega)]
    omega
  simp only [fetch, hu, hbp, hne2, hr, hbp2, Bool.false_eq_true, if_false, ite_false]
  exact ⟨by rw [List.drop_eq_nil_of_le hidx, List.take_of_length_le hidx], hbp2⟩

/-- C1 witness: the amended theorem applied to a concrete one-update
all-backlog batch. -/
theorem claim1_all_backlog_witness :
    (fetch ⟨-1, 100, false⟩ (some [⟨1, ⟨50, none⟩⟩])).2 =
        some ([], [⟨1, ⟨50, none⟩⟩]) ∧
      (fetch ⟨-1, 100, false⟩ (some [⟨1, ⟨50, none⟩⟩])).1.backlog_processed = false :=
  claim1_all_backlog ⟨-1, 100, false⟩ [⟨1, ⟨50, none⟩⟩] rfl (by decide) (by decide)

/-- C2.  The original claim asserts that a probe falling below index 0
makes `fetch` return no live updates, the whole batch being backlog.  On a
single-update batch whose date is at `started_at`, the probe does fall to
`-1`, but Python's negative slicing then returns the whole batch as live
and an empty backlog. -/
theorem claim2_probe_below_counterexample :
    (fetch ⟨-1, 100, false⟩ (some [⟨1, ⟨100, none⟩⟩])).2 =
        some ([⟨1, ⟨100, none⟩⟩], []) ∧
      (fetch ⟨-1, 100, false⟩ (some [⟨1, ⟨100, none⟩⟩])).2 ≠
        some ([], [⟨1, ⟨100, none⟩⟩]) := by
  decide

/-- C2 (amended).  Whenever the boundary-search loop breaks with a negative
probe, it has indeed set `_backlog_processed`; but the returned live list
is then the slice `updates[to_check:]` under Python's negative indexing.
For a batch in which every update's date is at or after `started_at`, the
probe ends at exactly `-1`, so `fetch` returns the last update (alone) as
live and the first `n - 1` updates as backlog — not an empty live list. -/
theorem claim2_probe_below_first (us0 : List Update) (t0 : Int) :
    (∀ (s : LoopState) (r : Int × Bool),
        loopBody us0 t0 s = Sum.inr r → r.1 < 0 → r.2 = true) ∧
      (∀ (st : UpdatesFetcher) (us : List Update),
          st.backlog_processed = false → us ≠ [] →
          (∀ u ∈ us, ¬u.message.date < st.started_at) →
          (fetch st (some us)).1.backlog_processed = true ∧
            (fetch st (some us)).2 =
              some (us.drop (us.length - 1), us.take (us.length - 1))) := by
  constructor
  · intro s r hb hneg
    by_cases hd : (us0.getD s.toCheck.toNat ⟨0, ⟨0, none⟩⟩).message.date < t0 <;>
      by_cases hcz : s.chunk / 2 = 0 <;>
        by_cases hl : s.last = -1 <;>
          simp only [loopBody, hd, hcz, hl, if_true, if_false, ite_true, ite_false,
            reduceIte, true_and, and_true, false_and, and_false] at hb <;>
            (try split at hb) <;> (try split at hb) <;> (try split at hb) <;>
              first
              | exact Sum.noConfusion hb
              | (cases hb; rfl)
              | (cases hb; exfalso; dsimp only at hneg; omega)
  · intro st us hbp hne hall
    obtain ⟨u, hu⟩ := getLast?_some_of_ne_nil us hne
    have hne2 : us.isEmpty = false := by
      cases us with
      | nil => exact absurd rfl hne
      | cons a l => rfl
    have hlen : 1 ≤ us.length := List.length_pos.mpr hne
    have hr : loopRun us st.started_at (fetchFuel us.length)
        ⟨(us.length : Int) - 1, us.length, 0⟩ = some (-1, true) := by
      apply loopRun_all_live us st.started_at hall (fetchFuel us.length)
        ⟨(us.length : Int) - 1, us.length, 0⟩ (by dsimp only; omega)
        (by dsimp only; omega) (by dsimp only; omega) (by dsimp only; omega)
      have hnn : 0 ≤ (2 * us.length + 2) * us.length := Nat.zero_le _
      dsimp only [fetchFuel]
      omega
    have hidx : pyIdx (-1) us.length = us.length - 1 := by
      simp only [pyIdx]
      rw [if_pos (by omega)]
      omega
    simp only [fetch, hu, hbp, hne2, hr, hidx, Bool.false_eq_true, if_false, ite_false]
    constructor <;> first | trivial | rfl

/-- C2 witness: the amended theorem applied to a concrete two-update
all-live batch (live = last update only, backlog = first update). -/
theorem claim2_probe_below_witness :
    (fetch ⟨-1, 100, false⟩ (some [⟨1, ⟨100, none⟩⟩, ⟨2, ⟨107, none⟩⟩])).1.backlog_processed = true ∧
      (fetch ⟨-1, 100, false⟩ (some [⟨1, ⟨100, none⟩⟩, ⟨2, ⟨107, none⟩⟩])).2 =
        some ([⟨2, ⟨107, none⟩⟩], [⟨1, ⟨100, none⟩⟩]) :=
  (claim2_probe_below_first [] 0).2 ⟨-1, 100, false⟩
    [⟨1, ⟨100, none⟩⟩, ⟨2, ⟨107, none⟩⟩] rfl (by decide) (by decide)

/-- Unfolding lemma: a continuing iteration consumes one unit of fuel. -/
theorem loopRun_succ_inl (us : List Update) (t : Int) (f : Nat) (s s2 : LoopState)
    (h : loopBody us t s = Sum.inl s2) :
    loopRun us t (f + 1) s = loopRun us t f s2 := by
  rw [loopRun, h]

/-- Unfolding lemma: a breaking iteration yields the loop's result. -/
theorem loopRun_succ_inr (us : List Update) (t : Int) (f : Nat) (s : LoopState)
    (r : Int × Bool) (h : loopBody us t s = Sum.inr r) :
    loopRun us t (f + 1) s = some r := by
  rw [loopRun, h]

/-- C3.  On the spec's five-update batch (dates `T-30, T-20, T-10, T+5,
T+15`), a fetcher awaiting backlog resolution with `started_at = T` splits
the batch into live `updates[3:5]` and backlog `updates[0:3]`, advances
`last_id` to 5, and resolves the backlog. -/
theorem claim3_backlog_split_small (T l : Int) :
    fetch ⟨l, T, false⟩ (some (specBatch T)) =
      (⟨5, T, true⟩,
       some ([⟨4, ⟨T + 5, none⟩⟩, ⟨5, ⟨T + 15, none⟩⟩],
             [⟨1, ⟨T - 30, none⟩⟩, ⟨2, ⟨T - 20, none⟩⟩, ⟨3, ⟨T - 10, none⟩⟩])) := by
  have hd1 : ¬(T + 15 < T) := by omega
  have hd2 : T - 10 < T := by omega
  have h1 : loopBody (specBatch T) T ⟨4, 5, 0⟩ = Sum.inl ⟨2, 2, -1⟩ := by
    simp [loopBody, specBatch, hd1]
  have h2 : loopBody (specBatch T) T ⟨2, 2, -1⟩ = Sum.inr (3, true) := by
    simp [loopBody, specBatch, hd2]
  have hrun : loopRun (specBatch T) T (fetchFuel (specBatch T).length)
      ⟨((specBatch T).length : Int) - 1, (specBatch T).length, 0⟩ = some (3, true) := by
    show loopRun (specBatch T) T (67 + 1) ⟨4, 5, 0⟩ = some (3, true)
    rw [loopRun_succ_inl _ _ _ _ _ h1, show (67 : Nat) = 66 + 1 from rfl,
      loopRun_succ_inr _ _ _ _ _ h2]
  calc fetch ⟨l, T, false⟩ (some (specBatch T))
      = (match loopRun (specBatch T) T (fetchFuel (specBatch T).length)
            ⟨((specBatch T).length : Int) - 1, (specBatch T).length, 0⟩ with
         | some (tc, bp) =>
            (⟨5, T, bp⟩, some ((specBatch T).drop (pyIdx tc (specBatch T).length),
                               (specBatch T).take (pyIdx tc (specBatch T).length)))
         | none => (⟨5, T, false⟩, some ([], []))) := rfl
    _ = _ := by rw [hrun]; rfl

/-- C10.  For every non-empty batch, with arbitrary (not necessarily
monotonic) dates and any `started_at`, the boundary-search loop of `fetch`
breaks after finitely many iterations: running it with the fuel `fetch`
supplies yields a result rather than exhausting the fuel. -/
theorem claim10_loop_terminates (us : List Update) (t : Int) (h : us ≠ []) :
    (loopRun us t (fetchFuel us.length)
      ⟨(us.length : Int) - 1, us.length, 0⟩).isSome = true :=
  loopRun_fetch_isSome us t h

/-- C10 witness: a concrete non-monotonic batch. -/
theorem claim10_loop_terminates_witness :
    (loopRun [⟨1, ⟨105, none⟩⟩, ⟨2, ⟨90, none⟩⟩, ⟨3, ⟨101, none⟩⟩] 100
      (fetchFuel ([⟨1, ⟨105, none⟩⟩, ⟨2, ⟨90, none⟩⟩, ⟨3, ⟨101, none⟩⟩] : List Update).length)
      ⟨(([⟨1, ⟨105, none⟩⟩, ⟨2, ⟨90, none⟩⟩, ⟨3, ⟨101, none⟩⟩] : List Update).length : Int) - 1,
        ([⟨1, ⟨105, none⟩⟩, ⟨2, ⟨90, none⟩⟩, ⟨3, ⟨101, none⟩⟩] : List Update).length,
        0⟩).isSome = true :=
  claim10_loop_terminates [⟨1, ⟨105, none⟩⟩, ⟨2, ⟨90, none⟩⟩, ⟨3, ⟨101, none⟩⟩] 100 (by decide)

/-- C8.  `fetch` raises `FetchError` exactly when the remote call's
response cannot be coerced into the expected update-list shape (modelled
by `resp = none`), and in that case the fetcher state — `last_id` and
`backlog_processed` alike — is unchanged from before the call. -/
theorem claim8_fetch_error_atomic (st : UpdatesFetcher) (resp : Option (List Update)) :
    ((fetch st resp).2 = none ↔ resp = none) ∧ (fetch st none).1 = st := by
  refine ⟨⟨?_, ?_⟩, rfl⟩
  · intro h
    cases resp with
    | none => rfl
    | some us =>
      exfalso
      simp only [fetch] at h
      split at h <;> (try split at h) <;> (try split at h) <;> (try split at h) <;> simp at h
  · intro h
    rw [h]
    rfl

/-- The seed of a fold-maximum is a lower bound of the result. -/
theorem le_maxIdFrom (us : List Update) : ∀ m : Int, m ≤ maxIdFrom m us := by
  induction us with
  | nil => intro m; exact le_refl m
  | cons a l ih =>
    intro m
    calc m ≤ max m a.update_id := le_max_left _ _
      _ ≤ maxIdFrom (max m a.update_id) l := ih _
      _ = maxIdFrom m (a :: l) := rfl

/-- Every id of the list is bounded by the fold-maximum. -/
theorem mem_le_maxIdFrom (us : List Update) :
    ∀ (m : Int) (u : Update), u ∈ us → u.update_id ≤ maxIdFrom m us := by
  induction us with
  | nil => intro m u hu; exact absurd hu (List.not_mem_nil u)
  | cons a l ih =>
    intro m u hu
    rcases List.mem_cons.mp hu with h | h
    · subst h
      calc u.update_id ≤ max m u.update_id := le_max_right _ _
        _ ≤ maxIdFrom (max m u.update_id) l := le_maxIdFrom l _
        _ = maxIdFrom m (u :: l) := rfl
    · exact ih (max m a.update_id) u h

/-- For an ascending list lying strictly above the seed, the fold-maximum
is the last element's id. -/
theorem maxIdFrom_getLast (us : List Update) (h : us ≠ []) :
    ∀ m : Int, (∀ u ∈ us, m < u.update_id) →
      List.Pairwise (fun a b : Update => a.update_id < b.update_id) us →
      maxIdFrom m us = (us.getLast h).update_id := by
  induction us with
  | nil => exact absurd rfl h
  | cons a l ih =>
    intro m hm hasc
    cases l with
    | nil =>
      show max m a.update_id = a.update_id
      exact max_eq_right (le_of_lt (hm a (List.mem_cons_self a [])))
    | cons b l2 =>
      have hstep : maxIdFrom m (a :: b :: l2) = maxIdFrom (max m a.update_id) (b :: l2) := rfl
      have hmax : max m a.update_id = a.update_id :=
        max_eq_right (le_of_lt (hm a (List.mem_cons_self a _)))
      have htail : ∀ u ∈ b :: l2, a.update_id < u.update_id := by
        intro u hu
        exact (List.pairwise_cons.mp hasc).1 u hu
      rw [hstep, hmax, List.getLast_cons (by simp)]
      exact ih (by simp) a.update_id htail (List.pairwise_cons.mp hasc).2

/-- `fetch` sets `last_id` to the last update's id when the batch is
non-empty, and leaves it unchanged otherwise; `started_at` never changes. -/
theorem fetch_last_id (st : UpdatesFetcher) (us : List Update) :
    (fetch st (some us)).1.last_id =
        (match us.getLast? with
         | some u => u.update_id
         | none => st.last_id) ∧
      (fetch st (some us)).1.started_at = st.started_at := by
  cases hu : us.getLast? <;>
    simp only [fetch, hu] <;>
      split <;> (try split) <;> (try split) <;> exact ⟨rfl, rfl⟩

/-- C4.  Under the precondition that each `getUpdates` response is
ascending in `update_id` with every id above the requested offset, every
sequence of `fetch` calls keeps `last_id` non-decreasing, keeps it equal
to the fold-maximum of all ids seen so far (hence the greatest one, by the
bound conjunct), and requests offset `last_id + 1` on the next fetch
(fourth conjunct, by definition of the fetch loop). -/
theorem claim4_cursor_monotonicity (api : Int → List Update) (t : Int) (pb : Bool)
    (hasc : ∀ off : Int, List.Pairwise (fun a b : Update => a.update_id < b.update_id) (api off))
    (hgt : ∀ off : Int, ∀ u ∈ api off, off < u.update_id) :
    ∀ k : Nat,
      (iterFetch api (mkFetcher t pb) k).last_id ≤ (iterFetch api (mkFetcher t pb) (k + 1)).last_id
      ∧ (seenUpdates api (mkFetcher t pb) k ≠ [] →
          (iterFetch api (mkFetcher t pb) k).last_id = maxId (seenUpdates api (mkFetcher t pb) k))
      ∧ (∀ u ∈ seenUpdates api (mkFetcher t pb) k,
          u.update_id ≤ (iterFetch api (mkFetcher t pb) k).last_id)
      ∧ seenUpdates api (mkFetcher t pb) (k + 1) =
          seenUpdates api (mkFetcher t pb) k ++ api ((iterFetch api (mkFetcher t pb) k).last_id + 1) := by
  have hinv : ∀ k : Nat,
      (iterFetch api (mkFetcher t pb) k).last_id = maxId (seenUpdates api (mkFetcher t pb) k) := by
    intro k
    induction k with
    | zero => rfl
    | succ j ih =>
      have hresp := api ((iterFetch api (mkFetcher t pb) j).last_id + 1)
      rw [show seenUpdates api (mkFetcher t pb) (j + 1) =
          seenUpdates api (mkFetcher t pb) j ++
            api ((iterFetch api (mkFetcher t pb) j).last_id + 1) from rfl]
      rw [show iterFetch api (mkFetcher t pb) (j + 1) =
          (fetchWithApi api (iterFetch api (mkFetcher t pb) j)).1 from rfl]
      rw [show maxId (seenUpdates api (mkFetcher t pb) j ++
            api ((iterFetch api (mkFetcher t pb) j).last_id + 1)) =
          maxIdFrom (maxId (seenUpdates api (mkFetcher t pb) j))
            (api ((iterFetch api (mkFetcher t pb) j).last_id + 1)) from
        List.foldl_append _ _ _ _]
      rw [← ih]
      rcases (fetch_last_id (iterFetch api (mkFetcher t pb) j)
          (api ((iterFetch api (mkFetcher t pb) j).last_id + 1))) with ⟨hl, _⟩
      cases hu : (api ((iterFetch api (mkFetcher t pb) j).last_id + 1)).getLast? with
      | none =>
        rw [fetchWithApi, hl, hu]
        rw [List.getLast?_eq_none_iff.mp hu]
        rfl
      | some u =>
        have hne : api ((iterFetch api (mkFetcher t pb) j).last_id + 1) ≠ [] := by
          intro hcontra
          rw [hcontra] at hu
          exact Option.noConfusion hu
        have hgl : (api ((iterFetch api (mkFetcher t pb) j).last_id + 1)).getLast hne = u := by
          have := List.getLast?_eq_getLast _ hne
          rw [hu] at this
          exact (Option.some_injective _ this.symm)
        rw [fetchWithApi, hl, hu,
          maxIdFrom_getLast _ hne _
            (fun v hv => lt_trans (by omega)
              (hgt ((iterFetch api (mkFetcher t pb) j).last_id + 1) v hv))
            (hasc _), hgl]
  intro k
  refine ⟨?_, fun _ => hinv k, ?_, rfl⟩
  · rw [hinv k, hinv (k + 1),
      show seenUpdates api (mkFetcher t pb) (k + 1) =
        seenUpdates api (mkFetcher t pb) k ++
          api ((iterFetch api (mkFetcher t pb) k).last_id + 1) from rfl,
      show maxId (seenUpdates api (mkFetcher t pb) k ++
          api ((iterFetch api (mkFetcher t pb) k).last_id + 1)) =
        maxIdFrom (maxId (seenUpdates api (mkFetcher t pb) k))
          (api ((iterFetch api (mkFetcher t pb) k).last_id + 1)) from List.foldl_append _ _ _ _]
    exact le_maxIdFrom _ _
  · intro u hu
    rw [hinv k]
    exact mem_le_maxIdFrom _ _ u hu

/-- C4 witness: a concrete API returning one update with id `offset + 1`
per call, run for two fetches. -/
theorem claim4_cursor_monotonicity_witness :
    (iterFetch (fun off => [⟨off + 1, ⟨0, none⟩⟩]) (mkFetcher 0 false) 2).last_id ≤
        (iterFetch (fun off => [⟨off + 1, ⟨0, none⟩⟩]) (mkFetcher 0 false) 3).last_id
      ∧ (seenUpdates (fun off => [⟨off + 1, ⟨0, none⟩⟩]) (mkFetcher 0 false) 2 ≠ [] →
          (iterFetch (fun off => [⟨off + 1, ⟨0, none⟩⟩]) (mkFetcher 0 false) 2).last_id =
            maxId (seenUpdates (fun off => [⟨off + 1, ⟨0, none⟩⟩]) (mkFetcher 0 false) 2))
      ∧ (∀ u ∈ seenUpdates (fun off => [⟨off + 1, ⟨0, none⟩⟩]) (mkFetcher 0 false) 2,
          u.update_id ≤ (iterFetch (fun off => [⟨off + 1, ⟨0, none⟩⟩]) (mkFetcher 0 false) 2).last_id)
      ∧ seenUpdates (fun off => [⟨off + 1, ⟨0, none⟩⟩]) (mkFetcher 0 false) 3 =
          seenUpdates (fun off => [⟨off + 1, ⟨0, none⟩⟩]) (mkFetcher 0 false) 2 ++
            (fun off : Int => [(⟨off + 1, ⟨0, none⟩⟩ : Update)])
              ((iterFetch (fun off => [⟨off + 1, ⟨0, none⟩⟩]) (mkFetcher 0 false) 2).last_id + 1) :=
  claim4_cursor_monotonicity (fun off => [⟨off + 1, ⟨0, none⟩⟩]) 0 false
    (fun _ => List.pairwise_singleton _ _)
    (fun off u hu => by
      rcases List.mem_singleton.mp hu with h
      rw [h]
      show off < off + 1
      omega) 2

/-- With `multiple`, the match loop visits every match in order. -/
theorem matchLoop_fst_true : ∀ l : List Nat, (matchLoop true l).1 = l := by
  intro l
  induction l with
  | nil => rfl
  | cons m rest ih =>
    show m :: (matchLoop true rest).1 = m :: rest
    rw [ih]

/-- Without `multiple`, the match loop stops after the first match. -/
theorem matchLoop_fst_false : ∀ l : List Nat, (matchLoop false l).1 = l.take 1 := by
  intro l
  cases l with
  | nil => rfl
  | cons m rest => rfl

/-- The `found` flag is set exactly when there was at least one match. -/
theorem matchLoop_snd (multiple : Bool) : ∀ l : List Nat,
    ((matchLoop multiple l).2 = true ↔ l ≠ []) := by
  intro l
  cases multiple <;> cases l <;> simp [matchLoop]

/-- C5.  A matches-hook on a message with a text body invokes the user
callback once per match of the pattern in left-to-right order (all matches
with `multiple`, only the first without), and returns true exactly when at
least one match exists; concretely, on `"cat cat cat"` with pattern `cat`
there are three matches, `multiple=false` yields one callback invocation,
`multiple=true` yields three, and both runs return true. -/
theorem claim5_matches_hook (find : String → List Nat) (multiple : Bool) (s : String) :
    ((matchesHookRun find multiple (some s)).1 =
        (if multiple then find s else (find s).take 1))
      ∧ ((matchesHookRun find multiple (some s)).2 = some true ↔ find s ≠ [])
      ∧ literalFinditer "cat" "cat cat cat" = [0, 4, 8]
      ∧ (matchesHookRun (literalFinditer "cat") false (some "cat cat cat")).1.length = 1
      ∧ (matchesHookRun (literalFinditer "cat") true (some "cat cat cat")).1.length = 3
      ∧ (matchesHookRun (literalFinditer "cat") false (some "cat cat cat")).2 = some true
      ∧ (matchesHookRun (literalFinditer "cat") true (some "cat cat cat")).2 = some true := by
  refine ⟨?_, ?_, rfl, rfl, rfl, rfl, rfl⟩
  · show (matchLoop multiple (find s)).1 = _
    cases multiple
    · rw [matchLoop_fst_false]
      rfl
    · rw [matchLoop_fst_true]
      rfl
  · show some (matchLoop multiple (find s)).2 = some true ↔ find s ≠ []
    rw [Option.some_inj]
    exact matchLoop_snd multiple (find s)

/-- A prefix satisfying the predicate is wholly taken. -/
theorem takeWhile_all (p : Char → Bool) : ∀ l : List Char,
    (∀ c ∈ l, p c = true) → l.takeWhile p = l := by
  intro l
  induction l with
  | nil => intro _; rfl
  | cons c rest ih =>
    intro h
    rw [List.takeWhile_cons, h c (List.mem_cons_self _ _), if_pos rfl,
      ih (fun d hd => h d (List.mem_cons_of_mem _ hd))]

/-- `takeWhile` stops exactly at the first failing character. -/
theorem takeWhile_append_cons (p : Char → Bool) (c : Char) (hc : p c = false) :
    ∀ (l1 l2 : List Char), (∀ d ∈ l1, p d = true) →
      (l1 ++ c :: l2).takeWhile p = l1 := by
  intro l1
  induction l1 with
  | nil =>
    intro l2 _
    show (c :: l2).takeWhile p = []
    rw [List.takeWhile_cons, hc]
    rfl
  | cons d rest ih =>
    intro l2 h
    show (d :: (rest ++ c :: l2)).takeWhile p = d :: rest
    rw [List.takeWhile_cons, h d (List.mem_cons_self _ _), if_pos rfl,
      ih l2 (fun e he => h e (List.mem_cons_of_mem _ he))]

/-- Splitting a space-free word followed by a space: the word becomes one
fragment and splitting continues after the space. -/
theorem pySplitSpaceAux_word (c0 : Char) (hc0 : c0 = ' ') :
    ∀ (w acc rest : List Char), (∀ c ∈ w, c ≠ ' ') →
      pySplitSpaceAux acc (w ++ c0 :: rest) = (acc.reverse ++ w) :: pySplitSpaceAux [] rest := by
  intro w
  induction w with
  | nil =>
    intro acc rest _
    show pySplitSpaceAux acc (c0 :: rest) = _
    rw [pySplitSpaceAux, if_pos hc0]
    simp
  | cons c w2 ih =>
    intro acc rest h
    show pySplitSpaceAux acc (c :: (w2 ++ c0 :: rest)) = _
    rw [pySplitSpaceAux, if_neg (h c (List.mem_cons_self _ _)),
      ih (c :: acc) rest (fun d hd => h d (List.mem_cons_of_mem _ hd))]
    simp

/-- Splitting a space-free tail yields a single fragment. -/
theorem pySplitSpaceAux_last : ∀ (w acc : List Char), (∀ c ∈ w, c ≠ ' ') →
    pySplitSpaceAux acc w = [acc.reverse ++ w] := by
  intro w
  induction w with
  | nil =>
    intro acc _
    show [acc.reverse] = [acc.reverse ++ []]
    simp
  | cons c w2 ih =>
    intro acc h
    show pySplitSpaceAux acc (c :: w2) = _
    rw [pySplitSpaceAux, if_neg (h c (List.mem_cons_self _ _)),
      ih (c :: acc) (fun d hd => h d (List.mem_cons_of_mem _ hd))]
    simp

/-- Splitting a single-space-separated command line recovers the word and
the argument tokens. -/
theorem pySplitSpaceAux_build : ∀ (args : List (List Char)) (w acc : List Char),
    (∀ c ∈ w, c ≠ ' ') → (∀ a ∈ args, ∀ c ∈ a, c ≠ ' ') →
    pySplitSpaceAux acc (w ++ (args.map fun a => ' ' :: a).flatten) =
      (acc.reverse ++ w) :: args := by
  intro args
  induction args with
  | nil =>
    intro w acc hw _
    show pySplitSpaceAux acc (w ++ []) = _
    rw [List.append_nil, pySplitSpaceAux_last w acc hw]
  | cons a rest ih =>
    intro w acc hw hargs
    rw [show (((a :: rest).map fun a => ' ' :: a).flatten : List Char) =
        ' ' :: (a ++ (rest.map fun a => ' ' :: a).flatten) from by simp,
      show w ++ ' ' :: (a ++ (rest.map fun a => ' ' :: a).flatten) =
        w ++ ' ' :: (a ++ (rest.map fun a => ' ' :: a).flatten) from rfl,
      pySplitSpaceAux_word ' ' rfl w acc _ hw,
      ih a [] (hargs a (List.mem_cons_self _ _))
        (fun b hb => hargs b (List.mem_cons_of_mem _ hb))]
    simp

/-- The modelled commands regex matches a single-space command line and
extracts the bare command name. -/
theorem commandsReMatch_mkCmdText (name : List Char) (args : List (List Char))
    (hne : name ≠ []) (hname : ∀ c ∈ name, c ≠ ' ' ∧ c ≠ '@') :
    commandsReMatch (mkCmdText name args) = some name := by
  show (if ('/' : Char) = '/' then
      (let nm := (name ++ (args.map fun a => ' ' :: a).flatten).takeWhile
          fun d => d ≠ ' ' ∧ d ≠ '@'
       if nm.isEmpty then none else some nm)
    else none) = some name
  rw [if_pos rfl]
  have htake : ((name ++ (args.map fun a => ' ' :: a).flatten).takeWhile
      fun d => decide (d ≠ ' ' ∧ d ≠ '@')) = name := by
    cases args with
    | nil =>
      rw [show ((List.map (fun a => ' ' :: a) [] : List (List Char)).flatten : List Char) = []
        from rfl, List.append_nil]
      exact takeWhile_all _ name (fun c hc => by
        rcases hname c hc with ⟨h1, h2⟩
        simp [h1, h2])
    | cons a rest =>
      rw [show (((a :: rest).map fun a => ' ' :: a).flatten : List Char) =
          ' ' :: (a ++ (rest.map fun a => ' ' :: a).flatten) from by simp]
      exact takeWhile_append_cons _ ' ' (by decide) name _ (fun c hc => by
        rcases hname c hc with ⟨h1, h2⟩
        simp [h1, h2])
  rw [show ((name ++ (args.map fun a => ' ' :: a).flatten).takeWhile
      fun d => d ≠ ' ' ∧ d ≠ '@') =
    ((name ++ (args.map fun a => ' ' :: a).flatten).takeWhile
      fun d => decide (d ≠ ' ' ∧ d ≠ '@')) from rfl, htake,
    if_neg (by simpa [List.isEmpty_iff] using hne)]

/-- C6.  The original claim says the remaining text is split on whitespace
and that this holds for any whitespace separation.  In fact the code uses
`text.split(" ")`, which splits on single space characters only, keeping
an empty token for each run of consecutive spaces; on `"/start arg1  arg2"`
(two spaces) the handler receives `["arg1", "", "arg2"]`, not
`["arg1", "arg2"]`. -/
theorem claim6_command_args_counterexample :
    (commandHookRun "start".toList (some "/start arg1  arg2".toList)).1 ≠
      some ["arg1".toList, "arg2".toList] := by
  decide

/-- C6 (amended).  For every message whose text the commands regex resolves
to the registered command, the synthesized hook invokes the handler with
`text.split(" ")[1:]` — the remaining text split on single space
characters (empty tokens preserved) — and returns true.  In particular,
for arguments separated by exactly one space (as in `"/start arg1 arg2"`),
the handler receives exactly the argument tokens. -/
theorem claim6_command_parsing (name0 : List Char) (t0 : List Char) :
    (commandsReMatch t0 = some name0 →
        commandHookRun name0 (some t0) = (some ((pySplitSpace t0).drop 1), some true))
      ∧ (∀ (name : List Char) (args : List (List Char)),
          name ≠ [] → (∀ c ∈ name, c ≠ ' ' ∧ c ≠ '@') →
          (∀ a ∈ args, ∀ c ∈ a, c ≠ ' ') →
          commandHookRun name (some (mkCmdText name args)) = (some args, some true)) := by
  constructor
  · intro h
    show (match commandsReMatch t0 with
      | none => (none, none)
      | some g1 =>
        if g1 = name0 then (some ((pySplitSpace t0).drop 1), some true)
        else (none, none)) = _
    simp only [h]
    rw [if_pos trivial]
  · intro name args hne hname hargs
    show (match commandsReMatch (mkCmdText name args) with
      | none => (none, none)
      | some g1 =>
        if g1 = name then (some ((pySplitSpace (mkCmdText name args)).drop 1), some true)
        else (none, none)) = _
    simp only [commandsReMatch_mkCmdText name args hne hname]
    rw [if_pos trivial]
    have hsplit : pySplitSpace (mkCmdText name args) = ('/' :: name) :: args := by
      show pySplitSpaceAux [] ('/' :: name ++ (args.map fun a => ' ' :: a).flatten) = _
      rw [show ('/' :: name ++ (args.map fun a => ' ' :: a).flatten : List Char) =
          ('/' :: name) ++ (args.map fun a => ' ' :: a).flatten from by simp,
        pySplitSpaceAux_build args ('/' :: name) []
          (by
            intro c hc
            rcases List.mem_cons.mp hc with h1 | h1
            · rw [h1]; decide
            · exact (hname c h1).1)
          hargs]
      rfl
    rw [hsplit]
    rfl

/-- C6 witness: the amended theorem applied to command `start` with
arguments `arg1`, `arg2` (single-space separation). -/
theorem claim6_command_parsing_witness :
    commandHookRun "start".toList
        (some (mkCmdText "start".toList ["arg1".toList, "arg2".toList])) =
      (some ["arg1".toList, "arg2".toList], some true) :=
  (claim6_command_parsing [] []).2 "start".toList ["arg1".toList, "arg2".toList]
    (by decide) (by decide) (by decide)

/-- Registering distinct-name callable commands never raises and appends
them, in order, to the command table, leaving the hook lists and the
component name untouched. -/
theorem addCommandsAll_ok : ∀ (l : List (String × Handler)) (c : Component),
    (l.map Prod.fst).Nodup → (∀ p ∈ l, p.2.callable = true) →
    (∀ p ∈ l, p.1 ∉ c.commands.map Prod.fst) →
    (addCommandsAll c l).2 = l.map (fun _ => none)
      ∧ (addCommandsAll c l).1.commands = c.commands ++ l
      ∧ (addCommandsAll c l).1.processors = c.processors
      ∧ (addCommandsAll c l).1.before_processors = c.before_processors
      ∧ (addCommandsAll c l).1.component_name = c.component_name := by
  intro l
  induction l with
  | nil =>
    intro c _ _ _
    exact ⟨rfl, by simp [addCommandsAll], rfl, rfl, rfl⟩
  | cons p rest ih =>
    intro c hnodup hcall hnew
    obtain ⟨n, f⟩ := p
    have hnotin : n ∉ c.commands.map Prod.fst := hnew (n, f) (List.mem_cons_self _ _)
    have hcontains : (c.commands.map Prod.fst).contains n = false := by
      simpa using hnotin
    have hf : f.callable = true := hcall (n, f) (List.mem_cons_self _ _)
    have hadd : add_command c f n =
        (⟨c.component_name, c.commands ++ [(n, f)], c.processors, c.before_processors⟩, none) := by
      rw [add_command, if_neg (by rw [hcontains]; exact Bool.false_ne_true),
        if_neg (by simp [hf])]
    have hstep : addCommandsAll c ((n, f) :: rest) =
        ((addCommandsAll (add_command c f n).1 rest).1,
         (add_command c f n).2 :: (addCommandsAll (add_command c f n).1 rest).2) := rfl
    have hrest := ih ⟨c.component_name, c.commands ++ [(n, f)], c.processors, c.before_processors⟩
      ((List.nodup_cons.mp (by simpa using hnodup)).2)
      (fun q hq => hcall q (List.mem_cons_of_mem _ hq))
      (by
        intro q hq
        show q.1 ∉ (c.commands ++ [(n, f)]).map Prod.fst
        rw [List.map_append]
        intro hmem
        rcases List.mem_append.mp hmem with h1 | h1
        · exact hnew q (List.mem_cons_of_mem _ hq) h1
        · have hq1 : q.1 = n := by simpa using h1
          have : n ∈ rest.map Prod.fst := by
            rw [← hq1]
            exact List.mem_map_of_mem Prod.fst hq
          exact (List.nodup_cons.mp (by simpa using hnodup)).1 this)
    rw [hstep, hadd]
    dsimp only
    refine ⟨?_, ?_, hrest.2.2.1, hrest.2.2.2.1, hrest.2.2.2.2⟩
    · rw [hrest.1]
      rfl
    · rw [hrest.2.1]
      simp

/-- C7.  Registering any sequence of commands with pairwise distinct names
on a fresh component succeeds (no exception) and makes every command
retrievable via `_get_commands`, in registration order; and calling
`add_command` with an already-registered name raises `DuplicateCommand`
and returns the component unchanged (same commands, message hooks and
before hooks). -/
theorem claim7_registration_integrity :
    (∀ (nm : String) (l : List (String × Handler)),
        (l.map Prod.fst).Nodup → (∀ p ∈ l, p.2.callable = true) →
        (addCommandsAll (mkComponent nm) l).2 = l.map (fun _ => none)
          ∧ _get_commands (addCommandsAll (mkComponent nm) l).1 = l)
      ∧ (∀ (c : Component) (f : Handler) (name : String),
          name ∈ c.commands.map Prod.fst →
          add_command c f name = (c, some RegErr.duplicateCommand)) := by
  constructor
  · intro nm l hnodup hcall
    have h := addCommandsAll_ok l (mkComponent nm) hnodup hcall
      (by intro p _; simp [mkComponent])
    refine ⟨h.1, ?_⟩
    show (addCommandsAll (mkComponent nm) l).1.commands = l
    rw [h.2.1]
    rfl
  · intro c f name hmem
    rw [add_command, if_pos (by simpa using hmem)]

/-- C7 witness: two distinct commands then a duplicate registration. -/
theorem claim7_registration_integrity_witness :
    ((addCommandsAll (mkComponent "x") [("a", ⟨0, "fa", true⟩), ("b", ⟨1, "fb", true⟩)]).2 =
        ([("a", (⟨0, "fa", true⟩ : Handler)), ("b", ⟨1, "fb", true⟩)]).map (fun _ => none)
      ∧ _get_commands (addCommandsAll (mkComponent "x")
          [("a", ⟨0, "fa", true⟩), ("b", ⟨1, "fb", true⟩)]).1 =
        [("a", ⟨0, "fa", true⟩), ("b", ⟨1, "fb", true⟩)])
    ∧ add_command ⟨"x", [("a", ⟨0, "fa", true⟩)], [], []⟩ ⟨2, "g", true⟩ "a" =
        (⟨"x", [("a", ⟨0, "fa", true⟩)], [], []⟩, some RegErr.duplicateCommand) :=
  ⟨claim7_registration_integrity.1 "x" [("a", ⟨0, "fa", true⟩), ("b", ⟨1, "fb", true⟩)]
      (by decide) (by decide),
   claim7_registration_integrity.2 ⟨"x", [("a", ⟨0, "fa", true⟩)], [], []⟩ ⟨2, "g", true⟩ "a"
      (by decide)⟩

/-- Applying a sequence of registrations with callable handlers and
distinct fresh command names appends each group's entries in registration
order. -/
theorem applyOps_fields : ∀ (ops : List RegOp) (c : Component),
    (∀ op ∈ ops, (opHandler op).callable = true) →
    ((commandsOf ops).map Prod.fst).Nodup →
    (∀ p ∈ commandsOf ops, p.1 ∉ c.commands.map Prod.fst) →
    (applyOps c ops).before_processors = c.before_processors ++ beforeOf ops
      ∧ (applyOps c ops).processors = c.processors ++ messageOf ops
      ∧ (applyOps c ops).commands = c.commands ++ commandsOf ops
      ∧ (applyOps c ops).component_name = c.component_name := by
  intro ops
  induction ops with
  | nil =>
    intro c _ _ _
    exact ⟨by simp [applyOps, beforeOf], by simp [applyOps, messageOf],
      by simp [applyOps, commandsOf], rfl⟩
  | cons op rest ih =>
    intro c hcall hnodup hnew
    have hcallop : (opHandler op).callable = true := hcall op (List.mem_cons_self _ _)
    have hcallrest : ∀ o ∈ rest, (opHandler o).callable = true :=
      fun o ho => hcall o (List.mem_cons_of_mem _ ho)
    cases op with
    | beforeHook f =>
      have happ : applyOp c (RegOp.beforeHook f) =
          ⟨c.component_name, c.commands, c.processors, c.before_processors ++ [Hook.user f]⟩ := by
        rw [applyOp, add_before_processing_hook, if_neg (by simp_all [opHandler])]
      have hrest := ih ⟨c.component_name, c.commands, c.processors,
          c.before_processors ++ [Hook.user f]⟩ hcallrest
        (by simpa [commandsOf] using hnodup) (by simpa [commandsOf] using hnew)
      rw [show applyOps c (RegOp.beforeHook f :: rest) =
          applyOps (applyOp c (RegOp.beforeHook f)) rest from rfl, happ]
      refine ⟨?_, ?_, ?_, ?_⟩
      · rw [hrest.1]
        simp [beforeOf]
      · rw [hrest.2.1]
        simp [messageOf]
      · rw [hrest.2.2.1]
        simp [commandsOf]
      · exact hrest.2.2.2
    | messageHook f =>
      have happ : applyOp c (RegOp.messageHook f) =
          ⟨c.component_name, c.commands, c.processors ++ [Hook.user f], c.before_processors⟩ := by
        rw [applyOp, add_process_message_hook, if_neg (by simp_all [opHandler])]
      have hrest := ih ⟨c.component_name, c.commands, c.processors ++ [Hook.user f],
          c.before_processors⟩ hcallrest
        (by simpa [commandsOf] using hnodup) (by simpa [commandsOf] using hnew)
      rw [show applyOps c (RegOp.messageHook f :: rest) =
          applyOps (applyOp c (RegOp.messageHook f)) rest from rfl, happ]
      refine ⟨?_, ?_, ?_, ?_⟩
      · rw [hrest.1]
        simp [beforeOf]
      · rw [hrest.2.1]
        simp [messageOf]
      · rw [hrest.2.2.1]
        simp [commandsOf]
      · exact hrest.2.2.2
    | matchesHook f r fl m =>
      have happ : applyOp c (RegOp.matchesHook f r fl m) =
          ⟨c.component_name, c.commands, c.processors ++ [Hook.matchesHook f r fl m],
            c.before_processors⟩ := by
        rw [applyOp, add_message_matches_hook, if_neg (by simp_all [opHandler])]
      have hrest := ih ⟨c.component_name, c.commands,
          c.processors ++ [Hook.matchesHook f r fl m], c.before_processors⟩ hcallrest
        (by simpa [commandsOf] using hnodup) (by simpa [commandsOf] using hnew)
      rw [show applyOps c (RegOp.matchesHook f r fl m :: rest) =
          applyOps (applyOp c (RegOp.matchesHook f r fl m)) rest from rfl, happ]
      refine ⟨?_, ?_, ?_, ?_⟩
      · rw [hrest.1]
        simp [beforeOf]
      · rw [hrest.2.1]
        simp [messageOf]
      · rw [hrest.2.2.1]
        simp [commandsOf]
      · exact hrest.2.2.2
    | command n f =>
      have hcof : commandsOf (RegOp.command n f :: rest) = (n, f) :: commandsOf rest := rfl
      have hmem : (n, f) ∈ commandsOf (RegOp.command n f :: rest) := by
        rw [hcof]
        exact List.mem_cons_self _ _
      have hnotin : n ∉ c.commands.map Prod.fst := hnew (n, f) hmem
      have hcontains : (c.commands.map Prod.fst).contains n = false := by
        simpa using hnotin
      have hfc : f.callable = true := hcallop
      have happ : applyOp c (RegOp.command n f) =
          ⟨c.component_name, c.commands ++ [(n, f)], c.processors, c.before_processors⟩ := by
        rw [applyOp, add_command, if_neg (by rw [hcontains]; exact Bool.false_ne_true),
          if_neg (by simp [hfc])]
      have hnodup2 : ((commandsOf rest).map Prod.fst).Nodup :=
        (List.nodup_cons.mp (by simpa [hcof] using hnodup)).2
      have hnotin2 : n ∉ (commandsOf rest).map Prod.fst :=
        (List.nodup_cons.mp (by simpa [hcof] using hnodup)).1
      have hrest := ih ⟨c.component_name, c.commands ++ [(n, f)], c.processors,
          c.before_processors⟩ hcallrest hnodup2
        (by
          intro q hq
          show q.1 ∉ (c.commands ++ [(n, f)]).map Prod.fst
          rw [List.map_append]
          intro hmem2
          rcases List.mem_append.mp hmem2 with h1 | h1
          · exact hnew q (by rw [hcof]; exact List.mem_cons_of_mem _ hq) h1
          · have hq1 : q.1 = n := by simpa using h1
            exact hnotin2 (hq1 ▸ List.mem_map_of_mem Prod.fst hq))
      rw [show applyOps c (RegOp.command n f :: rest) =
          applyOps (applyOp c (RegOp.command n f)) rest from rfl, happ]
      refine ⟨?_, ?_, ?_, ?_⟩
      · rw [hrest.1]
        simp [beforeOf]
      · rw [hrest.2.1]
        simp [messageOf]
      · rw [hrest.2.2.1, hcof]
        simp
      · exact hrest.2.2.2

/-- C9.  For every sequence of registrations (callable handlers, distinct
command names), the hook chain consists of exactly three groups, in the
fixed order before-hooks, command-hooks, message-hooks; the before and
message groups list the registered handlers in registration order (and the
command group follows the dict's insertion order). -/
theorem claim9_hook_chain_order (nm : String) (ops : List RegOp)
    (hcall : ∀ op ∈ ops, (opHandler op).callable = true)
    (hnodup : ((commandsOf ops).map Prod.fst).Nodup) :
    _get_hooks_chain (applyOps (mkComponent nm) ops) =
      [(beforeOf ops).map (wrapFunction (applyOps (mkComponent nm) ops)),
       (commandsOf ops).map
         (fun p => wrapFunction (applyOps (mkComponent nm) ops) (Hook.commandHook p.1 p.2)),
       (messageOf ops).map (wrapFunction (applyOps (mkComponent nm) ops))] := by
  obtain ⟨hb, hp, hc, _⟩ := applyOps_fields ops (mkComponent nm) hcall hnodup
    (by intro p _; simp [mkComponent])
  show [(applyOps (mkComponent nm) ops).before_processors.map _,
      (generateCommandsProcessors (applyOps (mkComponent nm) ops)).map _,
      (applyOps (mkComponent nm) ops).processors.map _] = _
  rw [hb, hp, generateCommandsProcessors, hc]
  show [((beforeOf ops).map _), _, ((messageOf ops).map _)] = _
  rw [show ((mkComponent nm).commands ++ commandsOf ops : List (String × Handler)) =
    commandsOf ops from by simp [mkComponent], List.map_map]
  rfl

/-- C9 witness: a mixed registration sequence with one hook of each kind. -/
theorem claim9_hook_chain_order_witness :
    _get_hooks_chain (applyOps (mkComponent "x")
        [RegOp.messageHook ⟨0, "m", true⟩, RegOp.beforeHook ⟨1, "b", true⟩,
         RegOp.command "go" ⟨2, "g", true⟩,
         RegOp.matchesHook ⟨3, "p", true⟩ "cat" 0 false]) =
      [(beforeOf [RegOp.messageHook ⟨0, "m", true⟩, RegOp.beforeHook ⟨1, "b", true⟩,
          RegOp.command "go" ⟨2, "g", true⟩,
          RegOp.matchesHook ⟨3, "p", true⟩ "cat" 0 false]).map
         (wrapFunction (applyOps (mkComponent "x")
           [RegOp.messageHook ⟨0, "m", true⟩, RegOp.beforeHook ⟨1, "b", true⟩,
            RegOp.command "go" ⟨2, "g", true⟩,
            RegOp.matchesHook ⟨3, "p", true⟩ "cat" 0 false])),
       (commandsOf [RegOp.messageHook ⟨0, "m", true⟩, RegOp.beforeHook ⟨1, "b", true⟩,
          RegOp.command "go" ⟨2, "g", true⟩,
          RegOp.matchesHook ⟨3, "p", true⟩ "cat" 0 false]).map
         (fun p => wrapFunction (applyOps (mkComponent "x")
           [RegOp.messageHook ⟨0, "m", true⟩, RegOp.beforeHook ⟨1, "b", true⟩,
            RegOp.command "go" ⟨2, "g", true⟩,
            RegOp.matchesHook ⟨3, "p", true⟩ "cat" 0 false]) (Hook.commandHook p.1 p.2)),
       (messageOf [RegOp.messageHook ⟨0, "m", true⟩, RegOp.beforeHook ⟨1, "b", true⟩,
          RegOp.command "go" ⟨2, "g", true⟩,
          RegOp.matchesHook ⟨3, "p", true⟩ "cat" 0 false]).map
         (wrapFunction (applyOps (mkComponent "x")
           [RegOp.messageHook ⟨0, "m", true⟩, RegOp.beforeHook ⟨1, "b", true⟩,
            RegOp.command "go" ⟨2, "g", true⟩,
            RegOp.matchesHook ⟨3, "p", true⟩ "cat" 0 false]))] :=
  claim9_hook_chain_order "x"
    [RegOp.messageHook ⟨0, "m", true⟩, RegOp.beforeHook ⟨1, "b", true⟩,
     RegOp.command "go" ⟨2, "g", true⟩, RegOp.matchesHook ⟨3, "p", true⟩ "cat" 0 false]
    (by decide) (by decide)

end Botogram
